import Mathlib

/-!
Shallow embedding of the primordial-spectrum module (`source/primordial.c`)
and the energy-injection module (`hyrec_2017/energy_injection.c`) of the
`class_public_lrs` repository, together with theorems settling the claims
about them.

The C code computes with `double`; the embedding works over an abstract
linear ordered field `R`, with the transcendental library functions
(`exp`, `log`, `sqrt`, `pow`, `cos`, `sin`) and the constant `M_PI`
gathered in a `Prims R` record of primitives.  Theorems that need genuine
analytic facts are stated over `ℝ` with the real primitives `realPrims`;
theorems that only reflect control flow and field arithmetic are stated
for every `R`.  External collaborators of the module (the generic ODE
integrator, the spline interpolator) are black boxes in the source and are
passed as function parameters here.
-/

namespace Spec2Proof

variable {R : Type} [LinearOrderedField R]

/-- Record of the numeric library primitives used by the C sources. -/
structure Prims (R : Type) where
  exp : R → R
  log : R → R
  sqrt : R → R
  pow : R → R → R
  cos : R → R
  sin : R → R
  pi : R

/-- The real instantiation of the primitives. -/
noncomputable def realPrims : Prims ℝ :=
  ⟨Real.exp, Real.log, Real.sqrt, fun x y => Real.rpow x y, Real.cos, Real.sin, Real.pi⟩

/-- Dummy rational primitives, used to evaluate control-flow facts on `ℚ`. -/
def ratPrims : Prims ℚ :=
  ⟨fun _ => 1, fun _ => 1, fun _ => 1, fun _ _ => 1, fun _ => 1, fun _ => 1, 3⟩

/-- `square` from `hyrectools.h`. -/
def square (x : R) : R := x * x

/-- `cube` from `hyrectools.h`. -/
def cube (x : R) : R := x * x * x

/-- The fields of `INJ_PARAMS` (from `include/energy_injection.h`) that
`energy_injection.c` reads. -/
structure INJ_PARAMS (R : Type) where
  odmh2 : R
  pann : R
  pann_halo : R
  ann_z : R
  ann_zmax : R
  ann_zmin : R
  ann_var : R
  ann_z_halo : R
  Mpbh : R
  fpbh : R
  coll_ion : Int
  on_the_spot : Int

/-- `dEdtdV_DM_ann` (energy_injection.c lines 23-63): volumic energy
injection rate from dark-matter annihilation, smooth background plus halo
term. -/
def dEdtdV_DM_ann (P : Prims R) (z : R) (params : INJ_PARAMS R) : R :=
  let var := params.ann_var
  let zp1 := z + 1
  let zp1_ann := params.ann_z + 1
  let zp1_max := params.ann_zmax + 1
  let zp1_halo := params.ann_z_halo + 1
  let zp1_min := params.ann_zmin + 1
  let pann_smooth : R :=
    if params.pann > 0 then
      (if zp1 > zp1_max then
        params.pann * P.exp (-var * square (P.log (zp1_ann / zp1_max)))
      else if zp1 > zp1_min then
        params.pann * P.exp (var * (-square (P.log (zp1_ann / zp1_max))
          + square (P.log (zp1 / zp1_max))))
      else
        params.pann * P.exp (var * (-square (P.log (zp1_ann / zp1_max))
          + square (P.log (zp1_min / zp1_max))))) * zp1 * zp1 * zp1
    else 0
  let pann_tot : R :=
    pann_smooth +
      (if params.pann_halo > 0 then
        let u_min := zp1 / zp1_halo
        let erfc := P.pow (1 + 0.278393 * u_min + 0.230389 * u_min * u_min
          + 0.000972 * u_min * u_min * u_min
          + 0.078108 * u_min * u_min * u_min * u_min) (-4)
        params.pann_halo * erfc
      else 0)
  square (10537.4 * params.odmh2) * zp1 * zp1 * zp1 * 1e-9 * pann_tot

/-- `beta_pbh` (lines 74-82): dimensionless Compton drag rate. -/
def beta_pbh (P : Prims R) (Mpbh z xe Teff : R) : R :=
  let a := 1 / (1 + z)
  let vB := 9.09e3 * P.sqrt ((1 + xe) * Teff)
  let tB := 1.33e26 * Mpbh / vB / vB / vB
  7.45e-24 * xe / a / a / a / a * tB

/-- `gamma_pbh` (lines 85-87): dimensionless Compton cooling rate. -/
def gamma_pbh (P : Prims R) (Mpbh z xe Teff : R) : R :=
  3.67e3 / (1 + xe) * beta_pbh P Mpbh z xe Teff

/-- `lambda_pbh` (lines 90-105): dimensionless accretion rate. -/
def lambda_pbh (P : Prims R) (Mpbh z xe Teff : R) : R :=
  let beta := beta_pbh P Mpbh z xe Teff
  let gamma := gamma_pbh P Mpbh z xe Teff
  let lam_ricotti := P.exp (4.5 / (3 + P.pow beta 0.75)) / square (P.sqrt (1 + beta) + 1)
  let lam_ad := P.pow 0.6 1.5 / 4
  let lam_iso := P.exp 1.5 / 4
  let lam_nodrag := lam_ad + (lam_iso - lam_ad) * P.pow (gamma * gamma / (88 + gamma * gamma)) 0.22
  lam_ricotti * lam_nodrag / lam_iso

/-- `Mdot_pbh` (lines 109-114): accretion rate in g/s. -/
def Mdot_pbh (P : Prims R) (Mpbh z xe Teff : R) : R :=
  let vB := 9.09e3 * P.sqrt ((1 + xe) * Teff)
  9.15e22 * Mpbh * Mpbh * cube ((1 + z) / vB) * lambda_pbh P Mpbh z xe Teff

/-- `TS_over_me_pbh` (lines 122-134): near-horizon flow temperature over
the electron mass. -/
def TS_over_me_pbh (P : Prims R) (Mpbh z xe Teff : R) (coll_ion : Int) : R :=
  let gamma := gamma_pbh P Mpbh z xe Teff
  let tau := 1.5 / (5 + P.pow gamma (2 / 3))
  let YS0 := 2 / (1 + xe) * tau / 4 * P.pow (1 - 2.5 * tau) (1 / 3) * 1836
  let YS := if coll_ion = 1 then YS0 * P.pow ((1 + xe) / 2) 8 else YS0
  YS / P.pow (1 + YS / 0.27) (1 / 3)

/-- `eps_over_mdot_pbh` (lines 137-147): radiative efficiency over the
dimensionless accretion rate, with the free-free Gaunt-factor fit. -/
def eps_over_mdot_pbh (P : Prims R) (Mpbh z xe Teff : R) (coll_ion : Int) : R :=
  let X := TS_over_me_pbh P Mpbh z xe Teff coll_ion
  let G := if X < 1 then 4 / P.pi * P.sqrt (2 / P.pi / X) * (1 + 5.5 * P.pow X 1.25)
    else 13.5 / P.pi * (P.log (2 * X * 0.56146 + 0.08) + 4 / 3)
  X / 1836 / 137 * G

/-- `L_pbh` (lines 150-158): luminosity of a single primordial black hole. -/
def L_pbh (P : Prims R) (Mpbh z xe Teff : R) (coll_ion : Int) : R :=
  let Mdot := Mdot_pbh P Mpbh z xe Teff
  let mdot := Mdot / (1.4e17 * Mpbh)
  let eff := mdot * eps_over_mdot_pbh P Mpbh z xe Teff coll_ion
  eff * Mdot * 9e20

/-- `vbc_rms_func` (lines 161-164): rms relative baryon-CDM velocity. -/
def vbc_rms_func (z : R) : R := if z < 1e3 then 3e6 * (1 + z) / 1e3 else 3e6

/-- `L_pbh_av` (lines 168-190): luminosity averaged over the 50-point
quadrature of the relative-velocity distribution. -/
def L_pbh_av (P : Prims R) (Mpbh z xe Tgas : R) (coll_ion : Int) : R :=
  let vbc_rms := vbc_rms_func z
  let vbc_max := 5 * vbc_rms
  let nd := (List.range 50).foldl
    (fun (acc : R × R) (i : ℕ) =>
      let vbc := (i : R) * vbc_max / (50 - 1)
      let x := vbc / vbc_rms
      let P_vbc := x * x * P.exp (-1.5 * x * x)
      let Teff := Tgas + 1.21e-8 * vbc * vbc / (1 + xe)
      (acc.1 + L_pbh P Mpbh z xe Teff coll_ion * P_vbc, acc.2 + P_vbc))
    (0, 0)
  nd.1 / nd.2

/-- `dEdtdV_pbh` (lines 195-205): energy injection rate from primordial
black holes; the `fpbh > 0` test is the only guard. -/
def dEdtdV_pbh (P : Prims R) (fpbh Mpbh z xe Tgas : R) (coll_ion : Int) : R :=
  let xe_used := if xe < 1 then xe else 1
  if fpbh > 0 then
    7.07e-52 / Mpbh * cube (1 + z) * fpbh * L_pbh_av P Mpbh z xe_used Tgas coll_ion
  else 0

/-- `dEdtdV_inj` (lines 212-215): total volumic energy injection rate. -/
def dEdtdV_inj (P : Prims R) (z xe Tgas : R) (params : INJ_PARAMS R) : R :=
  dEdtdV_DM_ann P z params
    + dEdtdV_pbh P params.fpbh params.Mpbh z xe Tgas params.coll_ion

/-- `update_dEdtdV_dep` (lines 223-243): one update of the deposition
accumulator, returning the new accumulator value (the C routine writes it
back through the `dEdtdV_dep` pointer). -/
def update_dEdtdV_dep (P : Prims R) (z_out dlna xe Tgas nH H : R)
    (params : INJ_PARAMS R) (dEdtdV_dep : R) : R :=
  let inj := dEdtdV_inj P z_out xe Tgas params
  if params.on_the_spot = 1 then inj
  else (dEdtdV_dep * P.exp (-7 * dlna) + 2e-15 * dlna * nH / H * inj)
    / (1 + 2e-15 * dlna * nH / H)

/-! Primordial spectrum table (`source/primordial.c`). -/

/-- The spectrum types of `enum primordial_spectrum_type`. -/
inductive SpecType
  | analytic_Pk
  | inflation_V
  | inflation_H
  | inflation_V_end
  | external_Pk
deriving DecidableEq

/-- `enum linear_or_logarithmic`. -/
inductive LinOrLog
  | linear
  | logarithmic
deriving DecidableEq

/-- The errors `primordial_spectrum_at_k` can raise through `class_test`. -/
inductive SpectrumErr
  | negativeK
  | outOfRange
deriving DecidableEq

/-- The per-pair analytic coefficients stored by
`primordial_analytic_spectrum_init`: the `is_non_zero`, `amplitude`,
`tilt` and `running` entries of `struct primordial` for one
(mode, ic-pair) slot. -/
structure AnalyticCoeffs (R : Type) where
  is_non_zero : Bool
  amplitude : R
  tilt : R
  running : R

/-- The part of `struct primordial` that `primordial_spectrum_at_k` reads
for one mode index: the spectrum type, the pivot scale, the number of
initial conditions, the tabulated `lnk` array and the per-pair analytic
coefficients.  A pair `(i, j)` is always queried with `i ≤ j`, matching
the upper-triangular packing of `index_symmetric_matrix`. -/
structure PrimordialTable (R : Type) where
  spec_type : SpecType
  k_pivot : R
  ic_size : ℕ
  lnk_size : ℕ
  lnk : ℕ → R
  coeff : ℕ → ℕ → AnalyticCoeffs R

/-- `primordial_analytic_spectrum` (lines 949-969): the analytic power
spectrum for one stored coefficient slot, `0` for a zero-flagged slot. -/
def primordial_analytic_spectrum (P : Prims R) (k_pivot : R)
    (c : AnalyticCoeffs R) (k : R) : R :=
  if c.is_non_zero then
    c.amplitude * P.exp ((c.tilt - 1) * P.log (k / k_pivot)
      + 0.5 * c.running * P.pow (P.log (k / k_pivot)) 2)
  else 0

/-- Diagonal slot written by `primordial_analytic_spectrum_init`
(lines 802-807): the slot is always flagged non-zero. -/
def analytic_diag_coeffs (amplitude tilt running : R) : AnalyticCoeffs R :=
  ⟨true, amplitude, tilt, running⟩

/-- Off-diagonal slot written by `primordial_analytic_spectrum_init`
(lines 903-927) from the two diagonal slots and the configured
correlation, cross tilt and cross running. -/
def analytic_offdiag_coeffs (P : Prims R) (d1 d2 : AnalyticCoeffs R)
    (correlation tilt_x running_x : R) : AnalyticCoeffs R :=
  if correlation = 0 then ⟨false, 0, 0, 0⟩
  else ⟨true, P.sqrt (d1.amplitude * d2.amplitude) * correlation,
    0.5 * (d1.tilt + d2.tilt) + tilt_x,
    0.5 * (d1.running + d2.running) + running_x⟩

/-- The off-diagonal table value stored by `primordial_init`
(lines 332-339) from the cross spectrum `pk` and the two diagonal spectra
`pk1`, `pk2`: the correlation angle, clamped to `[-1, 1]`. -/
def init_store_offdiag (P : Prims R) (pk pk1 pk2 : R) : R :=
  if pk > P.sqrt (pk1 * pk2) then 1
  else if pk < -P.sqrt (pk1 * pk2) then -1
  else pk / P.sqrt (pk1 * pk2)

/-- The `ln k` inferred from the input by `primordial_spectrum_at_k`
(lines 72-80). -/
def lnk_of (P : Prims R) (mode : LinOrLog) (input : R) : R :=
  if mode = .linear then P.log input else input

/-- The out-of-table test of `primordial_spectrum_at_k` (line 85). -/
def out_of_range (tab : PrimordialTable R) (lnk : R) : Prop :=
  lnk > tab.lnk (tab.lnk_size - 1) ∨ lnk < tab.lnk 0

/-- `primordial_spectrum_at_k` (lines 54-177).  The caller-allocated
output array is modelled as a function on pairs `(i, j)` with `i ≤ j`
(the packed upper triangle); the external spline interpolator
`array_interpolate_spline` is the black-box parameter `interp`, giving
the interpolated table column for a pair at a point.  The result is the
raised error, if any, together with the output array after the call. -/
def primordial_spectrum_at_k (P : Prims R) (tab : PrimordialTable R)
    (interp : R → ℕ → ℕ → R) (mode : LinOrLog) (input : R)
    (output : ℕ → ℕ → R) : Option SpectrumErr × (ℕ → ℕ → R) :=
  if mode = .linear ∧ input ≤ 0 then (some .negativeK, output) else
  let lnk := lnk_of P mode input
  if lnk > tab.lnk (tab.lnk_size - 1) ∨ lnk < tab.lnk 0 then
    if tab.spec_type ≠ .analytic_Pk then (some .outOfRange, output) else
    let out1 : ℕ → ℕ → R := fun i j =>
      if i < tab.ic_size ∧ i ≤ j ∧ j < tab.ic_size then
        if (tab.coeff i j).is_non_zero then
          primordial_analytic_spectrum P tab.k_pivot (tab.coeff i j) (P.exp lnk)
        else 0
      else output i j
    if mode = .logarithmic then
      (none, fun i j =>
        if i < tab.ic_size ∧ i ≤ j ∧ j < tab.ic_size then
          if i = j then P.log (out1 i i)
          else if (tab.coeff i j).is_non_zero then
            out1 i j / P.sqrt (P.log (out1 i i) * P.log (out1 j j))
          else out1 i j
        else out1 i j)
    else (none, out1)
  else
    let out1 : ℕ → ℕ → R := fun i j =>
      if i < tab.ic_size ∧ i ≤ j ∧ j < tab.ic_size then interp lnk i j
      else output i j
    if mode = .linear then
      (none, fun i j =>
        if i < tab.ic_size ∧ i ≤ j ∧ j < tab.ic_size then
          if i = j then P.exp (out1 i i)
          else if (tab.coeff i j).is_non_zero then
            out1 i j * P.sqrt (P.exp (out1 i i) * P.exp (out1 j j))
          else 0
        else out1 i j)
    else (none, out1)

/-! Inflation simulator (`source/primordial.c`, background part). -/

/-- `enum integration_direction`. -/
inductive IntegrationDirection
  | forward
  | backward
deriving DecidableEq

/-- The background slice of the state vector `y`: for the potential-based
types, `y[index_in_a]`, `y[index_in_phi]`, `y[index_in_dphi]`
(indices 0, 1, 2 as set by `primordial_inflation_indices`). -/
structure BgState (R : Type) where
  a : R
  phi : R
  dphi : R
deriving DecidableEq

/-- The per-wavenumber reinitialization of the background part of the
running vector in `primordial_inflation_spectra` (lines 1488-1492): `a`
and `phi` are copied from `y_ini`; `dphi` is copied only under the guard
`(type == inflation_V) && (type == inflation_V_end)` exactly as written
in the source. -/
def spectra_reset_background (t : SpecType) (y y_ini : BgState R) : BgState R :=
  ⟨y_ini.a, y_ini.phi,
    if t = .inflation_V ∧ t = .inflation_V_end then y_ini.dphi else y.dphi⟩

/-- The state preparation before the post-pivot forward duration check in
`primordial_inflation_solve_inflation` (lines 1221-1224): `a` and `phi`
are set to the pivot values; `dphi` is set only under the guard
`(type == inflation_V) && (type == inflation_V_end)` exactly as written
in the source. -/
def duration_check_init_state (t : SpecType) (y : BgState R)
    (a_pivot phi_pivot dphidt_pivot : R) : BgState R :=
  ⟨a_pivot, phi_pivot,
    if t = .inflation_V ∧ t = .inflation_V_end then a_pivot * dphidt_pivot
    else y.dphi⟩

/-- The dimension `pipaw.N` of the system handed to the generic
integrator by `primordial_inflation_evolve_background`
(lines 1881-1886): one less than the background size for a backward call
with a potential-based spectrum type. -/
def integrator_system_size (t : SpecType) (dir : IntegrationDirection)
    (in_bg_size : ℕ) : ℕ :=
  if dir = .backward ∧ (t = .inflation_V ∨ t = .inflation_V_end) then
    in_bg_size - 1
  else in_bg_size

/-- The forward background branch of `primordial_inflation_derivs`
(lines 2634-2643) for the potential-based types: exact second-order
Klein-Gordon dynamics.  `Vf`/`dVf` are the potential and its slope; the
result is the new content of the derivative buffer `dy`. -/
def derivs_V_forward (P : Prims R) (Vf dVf : R → R) (y : BgState R) : BgState R :=
  let a2 := y.a * y.a
  let aH := P.sqrt (8 * P.pi / 3 * (0.5 * y.dphi * y.dphi + a2 * Vf y.phi))
  ⟨y.a * aH, y.dphi, -2 * aH * y.dphi - a2 * dVf y.phi⟩

/-- The backward background branch of `primordial_inflation_derivs`
(lines 2661-2674) for the potential-based types: first-order slow-roll
reduction.  Only `dy[index_in_a]` and `dy[index_in_phi]` are written;
the `dphi` slot of the derivative buffer keeps its previous content. -/
def derivs_V_backward (P : Prims R) (Vf dVf : R → R) (y dy : BgState R) : BgState R :=
  let a2 := y.a * y.a
  let aH := P.sqrt (8 * P.pi / 3 * a2 * Vf y.phi)
  ⟨y.a * aH, -a2 * dVf y.phi / 3 / aH, dy.dphi⟩

/-- The final trapezoidal correction step of
`primordial_inflation_evolve_background` (lines 2102-2105): `a` and `phi`
are always advanced; `dphi` only for a forward call with a
potential-based spectrum type. -/
def trapezoid_final_step (t : SpecType) (dir : IntegrationDirection)
    (y dy : BgState R) (dtau : R) : BgState R :=
  ⟨y.a + dy.a * dtau, y.phi + dy.phi * dtau,
    if dir = .forward ∧ (t = .inflation_V ∨ t = .inflation_V_end) then
      y.dphi + dy.dphi * dtau
    else y.dphi⟩

/-- A backward call of `primordial_inflation_evolve_background` for a
potential-based spectrum type, as a whole: the generic integrator is the
black box `integr`, advancing per accepted step the `(a, phi)` pair - the
`pipaw.N = in_bg_size - 1 = 2` slots it is given - and the call ends with
the trapezoidal correction computed from the backward derivative
branch.  `dy0` is the derivative buffer before the final step and
`nsteps` the number of accepted integrator steps. -/
def evolve_background_backward_V (P : Prims R) (Vf dVf : R → R)
    (integr : ℕ → R × R → R × R) (nsteps : ℕ) (y dy0 : BgState R)
    (dtau_last : R) : BgState R :=
  let aphi := (List.range nsteps).foldl (fun s i => integr i s) (y.a, y.phi)
  let y1 : BgState R := ⟨aphi.1, aphi.2, y.dphi⟩
  let dy := derivs_V_backward P Vf dVf y1 dy0
  trapezoid_final_step .inflation_V .backward y1 dy dtau_last

/-- `primordial_inflation_get_epsilon` (lines 2241-2252) for the
potential-based types: the first slow-roll parameter. -/
def primordial_inflation_get_epsilon_V (P : Prims R) (Vf dVf : R → R) (phi : R) : R :=
  1 / 16 / P.pi * P.pow (dVf phi / Vf phi) 2

/-- The `check_epsilon` control flow of
`primordial_inflation_evolve_background` (lines 1906-1913 and
2014-2030): the loop carries the epsilon value of the previous
checkpoint and raises the slow-roll-violation error (reporting the field
value) the first time epsilon exceeds 1 while the carried value was at
most 1.  `eps` abstracts `primordial_inflation_get_epsilon` and the list
holds the field values after each accepted integrator step. -/
def epsilon_check_loop (eps : R → R) : R → List R → Option R
  | _, [] => none
  | eps_old, phi :: rest =>
    if eps phi > 1 ∧ eps_old ≤ 1 then some phi
    else epsilon_check_loop eps (eps phi) rest

/-- A `check_epsilon` run of the background evolver: the initial epsilon
is evaluated at the starting field value (lines 1906-1913), then each
accepted step is checked in turn.  `some phi` is the
slow-roll-violation error raised at field value `phi`; `none` means the
call raises no such error. -/
def evolve_epsilon_check (eps : R → R) (phi_start : R) (steps : List R) : Option R :=
  epsilon_check_loop eps (eps phi_start) steps

/-- The slow-roll estimate `phi' = -V'/(3H)` used by
`primordial_inflation_find_attractor` (lines 1748 and 1785). -/
def slow_roll_dphidt (P : Prims R) (V dV : R) : R :=
  -dV / 3 / P.sqrt (8 * P.pi / 3 * V)

/-- The series of `phi'(phi_0)` values examined by
`primordial_inflation_find_attractor`: the slow-roll estimate at
`phi_0` first (line 1748), then, for counter `c ≥ 1`, the value
`y[index_in_dphi]/y[index_in_a]` produced by the `c`-th forward
integration (line 1807), abstracted as the black box `res`. -/
def attractor_iterate (P : Prims R) (V0 dV0 : R) (res : ℕ → R) : ℕ → R
  | 0 => slow_roll_dphidt P V0 dV0
  | c + 1 => res (c + 1)

/-- The comparison value `dphidt_0old` held when the loop condition of
`primordial_inflation_find_attractor` is evaluated for the `c`-th time:
the artificial seed `dphidt_0new/(precision+2)` (line 1752) first, then
the previous member of the series. -/
def attractor_prev (P : Prims R) (prec V0 dV0 : R) (res : ℕ → R) : ℕ → R
  | 0 => slow_roll_dphidt P V0 dV0 / (prec + 2)
  | c + 1 => attractor_iterate P V0 dV0 res c

/-- The loop condition `fabs(dphidt_0new/dphidt_0old-1.) >= precision`
(line 1760) at its `c`-th evaluation. -/
def attractor_cond (P : Prims R) (prec V0 dV0 : R) (res : ℕ → R) (c : ℕ) : Prop :=
  |attractor_iterate P V0 dV0 res c / attractor_prev P prec V0 dV0 res c - 1| ≥ prec

/-- The iteration loop of `primordial_inflation_find_attractor`
(lines 1760-1809): while the relative change is at least `prec`, the
counter is incremented and tested against `maxit`
(`primordial_inflation_attractor_maxit`); on failure the
attractor-not-found error (`none`) is raised, otherwise the next series
member is computed and the loop repeats.  On exit the accepted series
member is returned. -/
def attractor_go (prec : R) (maxit : ℕ) (res : ℕ → R) (counter : ℕ)
    (old new : R) : Option R :=
  if ¬ (|new / old - 1| ≥ prec) then some new
  else if counter + 1 ≥ maxit then none
  else attractor_go prec maxit res (counter + 1) new (res (counter + 1))
termination_by maxit - counter
decreasing_by omega

/-- `primordial_inflation_find_attractor` (lines 1722-1823): `V0`/`dV0`
are the checked potential value and slope at `phi_0`; on success the
outputs are the converged `dphidt_0` and
`H_0 = sqrt((8 pi/3)(dphidt_0^2/2 + V_0))` (line 1816). -/
def primordial_inflation_find_attractor (P : Prims R) (prec : R) (maxit : ℕ)
    (V0 dV0 : R) (res : ℕ → R) : Option (R × R) :=
  let new0 := slow_roll_dphidt P V0 dV0
  match attractor_go prec maxit res 0 (new0 / (prec + 2)) new0 with
  | none => none
  | some d => some (d, P.sqrt (8 * P.pi / 3 * (0.5 * d * d + V0)))

/-- The starting field value used by the `c`-th iteration of
`primordial_inflation_find_attractor`: each iteration moves it by
`dV_0/V_0/16/pi` (line 1775), roughly one e-fold further back. -/
def attractor_phi (P : Prims R) (phi_0 V0 dV0 : R) : ℕ → R
  | 0 => phi_0
  | c + 1 => attractor_phi P phi_0 V0 dV0 c + dV0 / V0 / 16 / P.pi

/-! Concrete instances used in closed evaluations. -/

/-- A diagonal analytic slot with amplitude `e`, tilt 1 and no running. -/
noncomputable def expDiag : AnalyticCoeffs ℝ := analytic_diag_coeffs (Real.exp 1) 1 0

/-- A two-ic analytic table with fully correlated initial conditions
(correlation 1, no cross tilt and no cross running) and a single
tabulated point `lnk = 0`. -/
noncomputable def corrTable : PrimordialTable ℝ :=
  ⟨.analytic_Pk, 1, 2, 1, fun _ => 0,
    fun i j =>
      if i = 0 ∧ j = 1 then analytic_offdiag_coeffs realPrims expDiag expDiag 1 0 0
      else expDiag⟩

/-- A non-analytic (externally computed) table with a single tabulated
point `lnk = 5`. -/
noncomputable def externTable : PrimordialTable ℝ :=
  ⟨.external_Pk, 1, 0, 1, fun _ => 5, fun _ _ => ⟨false, 0, 0, 0⟩⟩

/-- The analytic formula as the spec states it:
`P(k) = A exp[(n-1) ln(k/k_pivot) + (alpha/2) ln^2(k/k_pivot)]`. -/
noncomputable def spec_analytic_formula (c : AnalyticCoeffs ℝ) (k k_pivot : ℝ) : ℝ :=
  c.amplitude * Real.exp ((c.tilt - 1) * Real.log (k / k_pivot)
    + 0.5 * c.running * Real.log (k / k_pivot) ^ 2)

/-! Theorems settling the claims, preceded by their helper lemmas. -/

lemma realPrims_exp : realPrims.exp = Real.exp := rfl

lemma realPrims_log : realPrims.log = Real.log := rfl

lemma realPrims_sqrt : realPrims.sqrt = Real.sqrt := rfl

lemma realPrims_pi : realPrims.pi = Real.pi := rfl

lemma realPrims_pow (x y : ℝ) : realPrims.pow x y = Real.rpow x y := rfl

lemma rpow_two_eq_sq (x : ℝ) : Real.rpow x 2 = x ^ 2 := Real.rpow_two x

lemma lnk_of_linear (P : Prims R) (input : R) :
    lnk_of P .linear input = P.log input := rfl

lemma lnk_of_log (P : Prims R) (input : R) : lnk_of P .logarithmic input = input := rfl

/-- `primordial_analytic_spectrum` over `ℝ` computes the spec's formula
on a slot flagged non-zero. -/
lemma analytic_spectrum_eq_formula (c : AnalyticCoeffs ℝ) (k kp : ℝ)
    (h : c.is_non_zero = true) :
    primordial_analytic_spectrum realPrims kp c k = spec_analytic_formula c k kp := by
  simp only [primordial_analytic_spectrum, spec_analytic_formula, h, if_true,
    realPrims_exp, realPrims_log, realPrims_pow, rpow_two_eq_sq]

/-- C8: `update_dEdtdV_dep` sets the accumulator exactly to the
injection rate when `on_the_spot == 1`, independently of the prior
accumulator value, and otherwise to the explicit relaxation step
`(dep_old exp(-7 dlna) + 2e-15 dlna (nH/H) inj) / (1 + 2e-15 dlna (nH/H))`
where `inj` is that same injection rate. -/
theorem update_dEdtdV_dep_spec (P : Prims R) (z_out dlna xe Tgas nH H : R)
    (params : INJ_PARAMS R) (dep_old : R) :
    (params.on_the_spot = 1 →
      update_dEdtdV_dep P z_out dlna xe Tgas nH H params dep_old
        = dEdtdV_inj P z_out xe Tgas params)
    ∧ (params.on_the_spot ≠ 1 →
      update_dEdtdV_dep P z_out dlna xe Tgas nH H params dep_old
        = (dep_old * P.exp (-7 * dlna)
            + 2e-15 * dlna * (nH / H) * dEdtdV_inj P z_out xe Tgas params)
          / (1 + 2e-15 * dlna * (nH / H))) := by
  constructor
  · intro h
    simp [update_dEdtdV_dep, h]
  · intro h
    simp only [update_dEdtdV_dep, if_neg h]
    congr 1 <;> ring

/-- C9: `dEdtdV_pbh` returns exactly 0 whenever `fpbh ≤ 0`, for every
mass, redshift, ionization fraction, gas temperature and either value of
`coll_ion`; when `fpbh > 0` the same inputs are accepted with no further
validation and the PBH injection formula is returned. -/
theorem dEdtdV_pbh_guard (P : Prims R) (fpbh Mpbh z xe Tgas : R) (coll_ion : Int) :
    (fpbh ≤ 0 → dEdtdV_pbh P fpbh Mpbh z xe Tgas coll_ion = 0)
    ∧ (0 < fpbh → dEdtdV_pbh P fpbh Mpbh z xe Tgas coll_ion
        = 7.07e-52 / Mpbh * cube (1 + z) * fpbh
          * L_pbh_av P Mpbh z (if xe < 1 then xe else 1) Tgas coll_ion) := by
  constructor
  · intro h
    simp [dEdtdV_pbh, not_lt.mpr h]
  · intro h
    simp [dEdtdV_pbh, h]

/-- C10: in linear mode `primordial_spectrum_at_k` fails with the
negative-k error for every input `k ≤ 0` and leaves the output array
unchanged; in logarithmic mode no positivity check is applied - the
negative-k error is never raised and, for an analytic table, every real
input is accepted as `ln k` and the call succeeds. -/
theorem spectrum_at_k_linear_rejects_nonpositive (P : Prims R)
    (tab : PrimordialTable R) (interp : R → ℕ → ℕ → R) (input : R)
    (output : ℕ → ℕ → R) :
    (input ≤ 0 →
      primordial_spectrum_at_k P tab interp .linear input output
        = (some .negativeK, output))
    ∧ (primordial_spectrum_at_k P tab interp .logarithmic input output).1
        ≠ some .negativeK
    ∧ (tab.spec_type = .analytic_Pk →
      (primordial_spectrum_at_k P tab interp .logarithmic input output).1 = none) := by
  refine ⟨fun h => ?_, ?_, fun h => ?_⟩
  · unfold primordial_spectrum_at_k
    rw [if_pos ⟨rfl, h⟩]
  · simp only [primordial_spectrum_at_k, lnk_of_log]
    rw [if_neg (fun hh => LinOrLog.noConfusion hh.1)]
    by_cases h2 : input > tab.lnk (tab.lnk_size - 1) ∨ input < tab.lnk 0
    · rw [if_pos h2]
      by_cases h3 : tab.spec_type ≠ .analytic_Pk
      · rw [if_pos h3]
        simp
      · rw [if_neg h3]
        simp
    · rw [if_neg h2]
      simp
  · simp only [primordial_spectrum_at_k, lnk_of_log]
    rw [if_neg (fun hh => LinOrLog.noConfusion hh.1)]
    by_cases h2 : input > tab.lnk (tab.lnk_size - 1) ∨ input < tab.lnk 0
    · rw [if_pos h2, if_neg (fun hh => hh h)]
      simp
    · rw [if_neg h2]
      simp

/-- C1: the reinitialization guard
`(type == inflation_V) && (type == inflation_V_end)` is unsatisfiable,
so the per-k loop of `primordial_inflation_spectra` and the state setup
before the post-pivot duration check of
`primordial_inflation_solve_inflation` reset the scale factor and the
field but always leave the field momentum `y[index_in_dphi]` at its
previous value; at the concrete failing input the momentum keeps the
stale value 5 instead of the stored initial value 7. -/
theorem dphi_reset_guard_never_fires :
    (∀ (t : SpecType) (y y_ini : BgState ℚ),
      spectra_reset_background t y y_ini = ⟨y_ini.a, y_ini.phi, y.dphi⟩)
    ∧ (∀ (t : SpecType) (y : BgState ℚ) (ap pp dp : ℚ),
      duration_check_init_state t y ap pp dp = ⟨ap, pp, y.dphi⟩)
    ∧ (spectra_reset_background .inflation_V (⟨1, 2, 5⟩ : BgState ℚ)
        ⟨3, 4, 7⟩).dphi = 5 := by
  refine ⟨fun t y y_ini => ?_, fun t y ap pp dp => ?_, rfl⟩
  · cases t <;> rfl
  · cases t <;> rfl

/-- C7: for a potential-based spectrum type, a backward-direction
background call integrates a system of size `in_bg_size - 1`; the
backward branch of the derivative function neither reads the field
momentum (its `a` and `phi` outputs are unchanged under any change of
both momentum slots) nor writes it (the momentum slot of the derivative
buffer is passed through); and the whole backward call - the accepted
integrator steps over the reduced system plus the final trapezoidal
correction - leaves `y[index_in_dphi]` unchanged. -/
theorem backward_call_preserves_dphi (P : Prims R) (Vf dVf : R → R) :
    (∀ n : ℕ, integrator_system_size .inflation_V .backward n = n - 1
      ∧ integrator_system_size .inflation_V_end .backward n = n - 1)
    ∧ (∀ (y dy : BgState R) (d d' : R),
        (derivs_V_backward P Vf dVf ⟨y.a, y.phi, d⟩ ⟨dy.a, dy.phi, d'⟩).a
          = (derivs_V_backward P Vf dVf y dy).a
        ∧ (derivs_V_backward P Vf dVf ⟨y.a, y.phi, d⟩ ⟨dy.a, dy.phi, d'⟩).phi
          = (derivs_V_backward P Vf dVf y dy).phi)
    ∧ (∀ (y dy : BgState R), (derivs_V_backward P Vf dVf y dy).dphi = dy.dphi)
    ∧ (∀ (integr : ℕ → R × R → R × R) (nsteps : ℕ) (y dy0 : BgState R) (dtau : R),
        (evolve_background_backward_V P Vf dVf integr nsteps y dy0 dtau).dphi
          = y.dphi) :=
  ⟨fun _ => ⟨rfl, rfl⟩, fun _ _ _ _ => ⟨rfl, rfl⟩, fun _ _ => rfl,
    fun _ _ _ _ _ => rfl⟩

/-- C5: with `check_epsilon` enabled, the background evolver raises the
slow-roll-violation error exactly when some pair of consecutive epsilon
evaluations - the value at the starting point followed by the values
after each accepted step - crosses from `epsilon ≤ 1` to `epsilon > 1`;
in particular a run whose epsilon sequence makes no such crossing
(including one that starts with epsilon already above 1) raises no
error. -/
theorem epsilon_violation_iff_crossing (eps : R → R) (phi0 : R) (steps : List R) :
    (evolve_epsilon_check eps phi0 steps).isSome = true
      ↔ ∃ p ∈ (phi0 :: steps).zip steps, eps p.1 ≤ 1 ∧ 1 < eps p.2 := by
  unfold evolve_epsilon_check
  induction steps generalizing phi0 with
  | nil => simp [epsilon_check_loop]
  | cons phi rest ih =>
    simp only [epsilon_check_loop, List.zip_cons_cons, List.mem_cons]
    by_cases h : eps phi > 1 ∧ eps phi0 ≤ 1
    · rw [if_pos h]
      simp only [Option.isSome_some, true_iff]
      exact ⟨(phi0, phi), Or.inl rfl, h.2, h.1⟩
    · rw [if_neg h, ih phi]
      constructor
      · rintro ⟨p, hp, hle, hlt⟩
        exact ⟨p, Or.inr hp, hle, hlt⟩
      · rintro ⟨p, hp | hp, hle, hlt⟩
        · rw [hp] at hle hlt
          exact absurd ⟨hlt, hle⟩ h
        · exact ⟨p, hp, hle, hlt⟩

lemma attractor_go_eq (prec : R) (maxit : ℕ) (res : ℕ → R) (counter : ℕ)
    (old new : R) :
    attractor_go prec maxit res counter old new
      = if ¬ (|new / old - 1| ≥ prec) then some new
        else if counter + 1 ≥ maxit then none
        else attractor_go prec maxit res (counter + 1) new (res (counter + 1)) := by
  rw [attractor_go]

lemma attractor_go_none_iff (P : Prims R) (prec V0 dV0 : R) (res : ℕ → R)
    (maxit : ℕ) :
    ∀ n c : ℕ, c + n + 1 = maxit →
      (attractor_go prec maxit res c (attractor_prev P prec V0 dV0 res c)
          (attractor_iterate P V0 dV0 res c) = none
        ↔ ∀ t, c ≤ t → t < maxit → attractor_cond P prec V0 dV0 res t) := by
  intro n
  induction n with
  | zero =>
    intro c hc
    rw [attractor_go_eq]
    by_cases hcond : |attractor_iterate P V0 dV0 res c
        / attractor_prev P prec V0 dV0 res c - 1| ≥ prec
    · rw [if_neg (not_not.mpr hcond), if_pos (by omega)]
      constructor
      · intro _ t hct htm
        have ht : t = c := by omega
        rw [ht]
        exact hcond
      · intro _
        rfl
    · rw [if_pos hcond]
      constructor
      · intro hsome
        exact absurd hsome (by simp)
      · intro hall
        exact absurd (hall c le_rfl (by omega)) hcond
  | succ n ih =>
    intro c hc
    rw [attractor_go_eq]
    by_cases hcond : |attractor_iterate P V0 dV0 res c
        / attractor_prev P prec V0 dV0 res c - 1| ≥ prec
    · rw [if_neg (not_not.mpr hcond), if_neg (by omega : ¬ c + 1 ≥ maxit)]
      have hprev : (attractor_iterate P V0 dV0 res c : R)
          = attractor_prev P prec V0 dV0 res (c + 1) := rfl
      have hit : res (c + 1) = attractor_iterate P V0 dV0 res (c + 1) := rfl
      rw [hprev, hit, ih (c + 1) (by omega)]
      constructor
      · intro h t hct htm
        rcases eq_or_lt_of_le hct with heq | hlt
        · rw [← heq]
          exact hcond
        · exact h t (by omega) htm
      · intro h t hct htm
        exact h t (by omega) htm
    · rw [if_pos hcond]
      constructor
      · intro hsome
        exact absurd hsome (by simp)
      · intro hall
        exact absurd (hall c le_rfl (by omega)) hcond

lemma attractor_go_some_spec (P : Prims R) (prec V0 dV0 : R) (res : ℕ → R)
    (maxit : ℕ) :
    ∀ n c : ℕ, c + n + 1 = maxit → ∀ d : R,
      attractor_go prec maxit res c (attractor_prev P prec V0 dV0 res c)
          (attractor_iterate P V0 dV0 res c) = some d →
      ∃ j, c ≤ j ∧ j < maxit ∧ d = attractor_iterate P V0 dV0 res j
        ∧ ¬ attractor_cond P prec V0 dV0 res j
        ∧ ∀ t, c ≤ t → t < j → attractor_cond P prec V0 dV0 res t := by
  intro n
  induction n with
  | zero =>
    intro c hc d hd
    rw [attractor_go_eq] at hd
    by_cases hcond : |attractor_iterate P V0 dV0 res c
        / attractor_prev P prec V0 dV0 res c - 1| ≥ prec
    · rw [if_neg (not_not.mpr hcond), if_pos (by omega)] at hd
      exact absurd hd (by simp)
    · rw [if_pos hcond] at hd
      refine ⟨c, le_rfl, by omega, (Option.some_injective R hd).symm, hcond, ?_⟩
      intro t hct htc
      omega
  | succ n ih =>
    intro c hc d hd
    rw [attractor_go_eq] at hd
    by_cases hcond : |attractor_iterate P V0 dV0 res c
        / attractor_prev P prec V0 dV0 res c - 1| ≥ prec
    · rw [if_neg (not_not.mpr hcond), if_neg (by omega : ¬ c + 1 ≥ maxit)] at hd
      have hprev : (attractor_iterate P V0 dV0 res c : R)
          = attractor_prev P prec V0 dV0 res (c + 1) := rfl
      have hit : res (c + 1) = attractor_iterate P V0 dV0 res (c + 1) := rfl
      rw [hprev, hit] at hd
      obtain ⟨j, hcj, hjm, hdj, hnc, hall⟩ := ih (c + 1) (by omega) d hd
      refine ⟨j, by omega, hjm, hdj, hnc, ?_⟩
      intro t hct htj
      rcases eq_or_lt_of_le hct with heq | hlt
      · rw [← heq]
        exact hcond
      · exact hall t (by omega) htj
    · rw [if_pos hcond] at hd
      refine ⟨c, le_rfl, by omega, (Option.some_injective R hd).symm, hcond, ?_⟩
      intro t hct htc
      omega

/-- C6: `primordial_inflation_find_attractor` raises the
attractor-not-found error exactly when the loop condition (relative
change of the `phi'(phi_0)` series at least `precision`) holds at every
counter value below `primordial_inflation_attractor_maxit`; the loop
always executes at least once, since the seeded first comparison always
satisfies the condition; each iteration moves the starting field value
one further (approximate) e-fold back; and on success the returned
`dphidt_0` is the first accepted series member, with
`H_0 = sqrt((8 pi/3)(dphidt_0^2/2 + V(phi_0)))`. -/
theorem find_attractor_spec (prec : ℝ) (maxit : ℕ) (V0 dV0 phi_0 : ℝ)
    (res : ℕ → ℝ) (hmax : 1 ≤ maxit) (hV : 0 < V0) (hdV : dV0 < 0)
    (hp : 0 < prec) :
    (primordial_inflation_find_attractor realPrims prec maxit V0 dV0 res = none
      ↔ ∀ c, c < maxit → attractor_cond realPrims prec V0 dV0 res c)
    ∧ attractor_cond realPrims prec V0 dV0 res 0
    ∧ (∀ c : ℕ, attractor_phi realPrims phi_0 V0 dV0 (c + 1)
        < attractor_phi realPrims phi_0 V0 dV0 c)
    ∧ (∀ d H,
        primordial_inflation_find_attractor realPrims prec maxit V0 dV0 res
          = some (d, H) →
        H = Real.sqrt (8 * Real.pi / 3 * (0.5 * d * d + V0))
        ∧ ∃ j, j < maxit ∧ d = attractor_iterate realPrims V0 dV0 res j
          ∧ ¬ attractor_cond realPrims prec V0 dV0 res j
          ∧ ∀ t, t < j → attractor_cond realPrims prec V0 dV0 res t) := by
  have hs : 0 < slow_roll_dphidt realPrims V0 dV0 := by
    unfold slow_roll_dphidt
    rw [realPrims_sqrt, realPrims_pi]
    have harg : 0 < 8 * Real.pi / 3 * V0 := by positivity
    have hsq : 0 < Real.sqrt (8 * Real.pi / 3 * V0) := Real.sqrt_pos.mpr harg
    have hnum : 0 < -dV0 := neg_pos.mpr hdV
    positivity
  have hcond0 : attractor_cond realPrims prec V0 dV0 res 0 := by
    unfold attractor_cond attractor_iterate attractor_prev
    have hrw : slow_roll_dphidt realPrims V0 dV0
        / (slow_roll_dphidt realPrims V0 dV0 / (prec + 2)) = prec + 2 := by
      field_simp
    rw [hrw]
    rw [show prec + 2 - 1 = prec + 1 by ring, abs_of_pos (by linarith)]
    linarith
  have hgo := attractor_go_none_iff realPrims prec V0 dV0 res maxit
    (maxit - 1) 0 (by omega)
  simp only [attractor_prev, attractor_iterate] at hgo
  have hfind : primordial_inflation_find_attractor realPrims prec maxit V0 dV0 res
        = none
      ↔ attractor_go prec maxit res 0
          (slow_roll_dphidt realPrims V0 dV0 / (prec + 2))
          (slow_roll_dphidt realPrims V0 dV0) = none := by
    simp only [primordial_inflation_find_attractor]
    cases attractor_go prec maxit res 0
        (slow_roll_dphidt realPrims V0 dV0 / (prec + 2))
        (slow_roll_dphidt realPrims V0 dV0) with
    | none => simp
    | some d => simp
  refine ⟨?_, hcond0, ?_, ?_⟩
  · rw [hfind, hgo]
    constructor
    · intro h c hc
      exact h c (Nat.zero_le c) hc
    · intro h t _ htm
      exact h t htm
  · intro c
    have hstep : dV0 / V0 / 16 / realPrims.pi < 0 := by
      rw [realPrims_pi]
      have h1 : dV0 / V0 < 0 := div_neg_of_neg_of_pos hdV hV
      have h2 : dV0 / V0 / 16 < 0 := div_neg_of_neg_of_pos h1 (by norm_num)
      exact div_neg_of_neg_of_pos h2 Real.pi_pos
    show attractor_phi realPrims phi_0 V0 dV0 c + dV0 / V0 / 16 / realPrims.pi
      < attractor_phi realPrims phi_0 V0 dV0 c
    linarith
  · intro d H hd
    simp only [primordial_inflation_find_attractor] at hd
    cases hg : attractor_go prec maxit res 0
        (slow_roll_dphidt realPrims V0 dV0 / (prec + 2))
        (slow_roll_dphidt realPrims V0 dV0) with
    | none =>
      rw [hg] at hd
      exact absurd hd (by simp)
    | some d' =>
      rw [hg] at hd
      simp only [Option.some_inj, Prod.mk.injEq] at hd
      obtain ⟨hd1, hd2⟩ := hd
      have hsome := attractor_go_some_spec realPrims prec V0 dV0 res maxit
        (maxit - 1) 0 (by omega) d'
      simp only [attractor_prev, attractor_iterate] at hsome
      rw [hg] at hsome
      obtain ⟨j, _, hjm, hdj, hnc, hall⟩ := hsome rfl
      refine ⟨?_, j, hjm, hd1 ▸ hdj, hnc, fun t ht => hall t (Nat.zero_le t) ht⟩
      rw [← hd2, realPrims_sqrt, realPrims_pi, hd1]

/-- C6 witness: at a concrete configuration (`precision = 1`,
`maxit = 1`, `V_0 = 1`, `dV_0 = -1`) the seeded loop condition holds at
its first evaluation. -/
theorem find_attractor_spec_witness :
    attractor_cond realPrims 1 1 (-1) (fun _ => 0) 0 :=
  (find_attractor_spec 1 1 1 (-1) 0 (fun _ => 0) le_rfl one_pos
    (by norm_num) one_pos).2.1

/-- C2 (amended): every off-diagonal correlation value stored in the
table by `primordial_init` is clamped to the closed interval `[-1, 1]`;
the out-of-range direct path of `primordial_spectrum_at_k` applies no
clamp and can deliver a logarithmic-mode off-diagonal value outside
`[-1, 1]` (see the counterexample theorem). -/
theorem init_offdiag_clamped (pk pk1 pk2 : ℝ) :
    -1 ≤ init_store_offdiag realPrims pk pk1 pk2
    ∧ init_store_offdiag realPrims pk pk1 pk2 ≤ 1 := by
  unfold init_store_offdiag
  rw [realPrims_sqrt]
  have hs0 : 0 ≤ Real.sqrt (pk1 * pk2) := Real.sqrt_nonneg _
  split_ifs with h1 h2
  · norm_num
  · norm_num
  · push_neg at h1 h2
    rcases eq_or_lt_of_le hs0 with heq | hpos
    · rw [← heq, div_zero]
      norm_num
    · constructor
      · rw [le_div_iff hpos]
        linarith
      · rw [div_le_one hpos]
        exact h1

/-- C2 counterexample: for a legitimate fully correlated two-ic
analytic configuration (correlation 1, inside `[-1, 1]`, no cross tilt
and no cross running), the out-of-range logarithmic query at `ln k = 1`
delivers the off-diagonal value `e > 1`: the direct path divides the
cross spectrum by the square root of the product of the log-transformed
diagonal entries and applies no clamp. -/
theorem out_of_range_offdiag_exceeds_one :
    1 < (primordial_spectrum_at_k realPrims corrTable (fun _ _ _ => 0)
      .logarithmic 1 (fun _ _ => 0)).2 0 1 := by
  have he : Real.sqrt (Real.exp 1 * Real.exp 1) = Real.exp 1 :=
    Real.sqrt_mul_self (Real.exp_pos 1).le
  have hone : (1 : ℝ) < Real.exp 1 := by
    have h := Real.add_one_le_exp (1 : ℝ)
    linarith
  norm_num [primordial_spectrum_at_k, lnk_of_log, corrTable, expDiag,
    analytic_diag_coeffs, analytic_offdiag_coeffs, primordial_analytic_spectrum,
    realPrims_exp, realPrims_log, realPrims_sqrt, realPrims_pow, he,
    Real.log_exp, Real.exp_zero, Real.sqrt_one]

lemma sqrt_exp_half (x : ℝ) : Real.sqrt (Real.exp x) = Real.exp (x / 2) := by
  rw [show Real.exp x = Real.exp (x / 2) * Real.exp (x / 2) by
    rw [← Real.exp_add]
    ring_nf]
  exact Real.sqrt_mul_self (Real.exp_nonneg _)

lemma sqrt_amp_mul_exp (A1 A2 X1 X2 : ℝ) (hA1 : 0 ≤ A1) (hA2 : 0 ≤ A2) :
    Real.sqrt (A1 * Real.exp X1 * (A2 * Real.exp X2))
      = Real.sqrt (A1 * A2) * Real.exp ((X1 + X2) / 2) := by
  rw [show A1 * Real.exp X1 * (A2 * Real.exp X2) = A1 * A2 * Real.exp (X1 + X2) by
      rw [Real.exp_add]
      ring,
    Real.sqrt_mul (mul_nonneg hA1 hA2), sqrt_exp_half]

/-- C3 (amended): for a pair of initial conditions with nonzero
configured correlation `c` in `[-1, 1]` and vanishing cross tilt and
cross running, the off-diagonal analytic spectrum computed from the
stored coefficients satisfies `P_12(k) = c sqrt(P_11(k) P_22(k))` at
every wavenumber `k > 0`; with a nonzero cross tilt or cross running the
relation fails away from the pivot scale (see the counterexample
theorem). -/
theorem offdiag_consistency_zero_cross (A1 A2 n1 n2 r1 r2 c k k_pivot : ℝ)
    (hA1 : 0 < A1) (hA2 : 0 < A2) (hc : c ≠ 0) (hc1 : -1 ≤ c) (hc2 : c ≤ 1)
    (hk : 0 < k) :
    primordial_analytic_spectrum realPrims k_pivot
        (analytic_offdiag_coeffs realPrims (analytic_diag_coeffs A1 n1 r1)
          (analytic_diag_coeffs A2 n2 r2) c 0 0) k
      = c * Real.sqrt
          (primordial_analytic_spectrum realPrims k_pivot
              (analytic_diag_coeffs A1 n1 r1) k
            * primordial_analytic_spectrum realPrims k_pivot
              (analytic_diag_coeffs A2 n2 r2) k) := by
  simp only [primordial_analytic_spectrum, analytic_offdiag_coeffs,
    analytic_diag_coeffs, if_neg hc, realPrims_exp, realPrims_log,
    realPrims_sqrt, realPrims_pow, rpow_two_eq_sq, if_true]
  rw [sqrt_amp_mul_exp _ _ _ _ hA1.le hA2.le]
  ring_nf

/-- C3 witness: the consistency relation at a concrete configuration
(`A_1 = A_2 = 1`, `n_1 = n_2 = 1`, no runnings, `c = 1/2`,
`k = k_pivot = 1`). -/
theorem offdiag_consistency_witness :
    primordial_analytic_spectrum realPrims 1
        (analytic_offdiag_coeffs realPrims (analytic_diag_coeffs 1 1 0)
          (analytic_diag_coeffs 1 1 0) (1 / 2) 0 0) 1
      = 1 / 2 * Real.sqrt
          (primordial_analytic_spectrum realPrims 1 (analytic_diag_coeffs 1 1 0) 1
            * primordial_analytic_spectrum realPrims 1
              (analytic_diag_coeffs 1 1 0) 1) :=
  offdiag_consistency_zero_cross 1 1 1 1 0 0 (1 / 2) 1 1 one_pos one_pos
    (by norm_num) (by norm_num) (by norm_num) one_pos

/-- C3 counterexample: with a nonzero cross tilt (here 1), correlation 1
and `k = e k_pivot`, the off-diagonal analytic spectrum is `e` while
`c sqrt(P_11 P_22) = 1`, so the claimed relation fails as stated. -/
theorem offdiag_cross_tilt_cex :
    primordial_analytic_spectrum realPrims 1
        (analytic_offdiag_coeffs realPrims (analytic_diag_coeffs 1 1 0)
          (analytic_diag_coeffs 1 1 0) 1 1 0) (Real.exp 1)
      ≠ 1 * Real.sqrt
          (primordial_analytic_spectrum realPrims 1 (analytic_diag_coeffs 1 1 0)
              (Real.exp 1)
            * primordial_analytic_spectrum realPrims 1
              (analytic_diag_coeffs 1 1 0) (Real.exp 1)) := by
  have hone : (1 : ℝ) < Real.exp 1 := by
    have h := Real.add_one_le_exp (1 : ℝ)
    linarith
  norm_num [primordial_analytic_spectrum, analytic_offdiag_coeffs,
    analytic_diag_coeffs, realPrims_exp, realPrims_log, realPrims_sqrt,
    realPrims_pow, Real.log_exp, Real.exp_zero, Real.sqrt_one]

/-- C4: range dispatch of `primordial_spectrum_at_k`.  For `ln k`
strictly outside the tabulated interval, an analytic-type call succeeds:
each non-zero-flagged diagonal entry is the direct analytic formula
`A exp[(n-1) ln(k/k_pivot) + (alpha/2) ln^2(k/k_pivot)]` at the query
wavenumber (its logarithm in logarithmic mode) and each zero-flagged
off-diagonal entry is returned as 0, while a non-analytic call fails
with the out-of-range error, output untouched.  For `ln k` inside the
interval the call succeeds and the result comes from the spline
interpolation of the table: returned as-is in logarithmic mode,
exponentiated on the diagonal and recombined off the diagonal in linear
mode. -/
theorem spectrum_at_k_range_dispatch (tab : PrimordialTable ℝ)
    (interp : ℝ → ℕ → ℕ → ℝ) (mode : LinOrLog) (input : ℝ)
    (output : ℕ → ℕ → ℝ) (res : Option SpectrumErr × (ℕ → ℕ → ℝ))
    (hpos : mode = .linear → 0 < input)
    (hres : res = primordial_spectrum_at_k realPrims tab interp mode input output) :
    (out_of_range tab (lnk_of realPrims mode input) →
      (tab.spec_type = .analytic_Pk →
        res.1 = none
        ∧ (mode = .linear → Real.exp (lnk_of realPrims mode input) = input)
        ∧ (∀ i, i < tab.ic_size → (tab.coeff i i).is_non_zero = true →
            res.2 i i
              = (if mode = .logarithmic then
                  Real.log (spec_analytic_formula (tab.coeff i i)
                    (Real.exp (lnk_of realPrims mode input)) tab.k_pivot)
                else spec_analytic_formula (tab.coeff i i)
                  (Real.exp (lnk_of realPrims mode input)) tab.k_pivot))
        ∧ (∀ i j, i < tab.ic_size → i < j → j < tab.ic_size →
            (tab.coeff i j).is_non_zero = false → res.2 i j = 0))
      ∧ (tab.spec_type ≠ .analytic_Pk → res = (some .outOfRange, output)))
    ∧ (¬ out_of_range tab (lnk_of realPrims mode input) →
      res.1 = none
      ∧ (mode = .logarithmic → ∀ i j, i < tab.ic_size → i ≤ j → j < tab.ic_size →
          res.2 i j = interp (lnk_of realPrims mode input) i j)
      ∧ (mode = .linear →
          (∀ i, i < tab.ic_size →
            res.2 i i = Real.exp (interp (lnk_of realPrims mode input) i i))
          ∧ (∀ i j, i < tab.ic_size → i < j → j < tab.ic_size →
              res.2 i j
                = (if (tab.coeff i j).is_non_zero then
                    interp (lnk_of realPrims mode input) i j
                      * Real.sqrt
                          (Real.exp (interp (lnk_of realPrims mode input) i i)
                            * Real.exp (interp (lnk_of realPrims mode input) j j))
                  else 0))))
    ∧ (∀ A t r : ℝ, (analytic_diag_coeffs A t r).is_non_zero = true) := by
  subst hres
  cases mode with
  | linear =>
    have hin : 0 < input := hpos rfl
    have hni : ¬ input ≤ 0 := not_le.mpr hin
    simp only [lnk_of_linear, realPrims_log, out_of_range]
    refine ⟨?_, ?_, fun _ _ _ => rfl⟩
    · intro hout
      constructor
      · intro hspec
        have hns : ¬ tab.spec_type ≠ SpecType.analytic_Pk := fun hh => hh hspec
        simp only [primordial_spectrum_at_k, lnk_of_linear, realPrims_log,
          if_pos hout, if_neg hns]
        refine ⟨by simp [hni], fun _ => Real.exp_log hin, fun i hi hnz => ?_,
          fun i j hi hij hj hz => ?_⟩
        · simp [hni, hi, hnz, analytic_spectrum_eq_formula _ _ _ hnz,
            realPrims_exp]
        · simp [hni, hi, hj, hij.le, hz]
      · intro hspec
        simp only [primordial_spectrum_at_k, lnk_of_linear, realPrims_log,
          if_pos hout, if_pos hspec]
        simp [hni]
    · intro hout
      simp only [primordial_spectrum_at_k, lnk_of_linear, realPrims_log,
        if_neg hout]
      refine ⟨by simp [hni], fun hh => absurd hh (by simp), fun _ =>
        ⟨fun i hi => ?_, fun i j hi hij hj => ?_⟩⟩
      · simp [hni, hi, realPrims_exp]
      · have hne : i ≠ j := Nat.ne_of_lt hij
        simp [hni, hi, hj, hij.le, hne, realPrims_exp, realPrims_sqrt]
  | logarithmic =>
    simp only [lnk_of_log, out_of_range]
    refine ⟨?_, ?_, fun _ _ _ => rfl⟩
    · intro hout
      constructor
      · intro hspec
        have hns : ¬ tab.spec_type ≠ SpecType.analytic_Pk := fun hh => hh hspec
        simp only [primordial_spectrum_at_k, lnk_of_log, if_pos hout, if_neg hns]
        refine ⟨by simp, fun hh => absurd hh (by simp), fun i hi hnz => ?_,
          fun i j hi hij hj hz => ?_⟩
        · simp [hi, hnz, analytic_spectrum_eq_formula _ _ _ hnz,
            realPrims_exp, realPrims_log]
        · have hne : i ≠ j := Nat.ne_of_lt hij
          simp [hi, hj, hij.le, hne, hz]
      · intro hspec
        simp only [primordial_spectrum_at_k, lnk_of_log, if_pos hout,
          if_pos hspec]
        simp
    · intro hout
      simp only [primordial_spectrum_at_k, lnk_of_log, if_neg hout]
      refine ⟨by simp, fun _ i j hi hij hj => ?_, fun hh => absurd hh (by simp)⟩
      simp [hi, hj, hij]

/-- C4 witness: an out-of-range query against a non-analytic table fails
with the out-of-range error and leaves the output array untouched. -/
theorem spectrum_at_k_range_dispatch_witness :
    primordial_spectrum_at_k realPrims externTable (fun _ _ _ => 0)
        .logarithmic 1 (fun _ _ => 0)
      = (some .outOfRange, fun _ _ => 0) :=
  ((spectrum_at_k_range_dispatch externTable (fun _ _ _ => 0) .logarithmic 1
      (fun _ _ => 0) _ (fun h => LinOrLog.noConfusion h) rfl).1
    (Or.inr (by norm_num [externTable, lnk_of_log]))).2
    (by simp [externTable])

end Spec2Proof
